import Mathlib

/-
Verification development for the classification-and-embedding cache subsystem
of the Horizon browser extension (src/background.js and friends).

The JavaScript module state and its operations are shallowly embedded:
the Map from content hash to embedding becomes an association list, the
recency array becomes a list of hashes (oldest first, newest last), daily
aggregate records become a structure with optional fields for the maps that
pre-migration snapshots may lack, and the asynchronous message handler
becomes a pure function parameterised over the results of the external
capabilities (content hashing, classification, embedding extraction) and the
stored values it would read.
-/

namespace Horizon

/-- Embedding vectors are modelled as lists of integers: every cache and
aggregation operation in background.js treats the numeric payload as opaque
(the 6-decimal quantisation happens before any value reaches the cache). -/
abbrev Embedding := List Int

/-- Association list modelling the JavaScript Map from content hash to
embedding vector (the module-level embeddingCache of background.js). -/
abbrev EmbMap := List (String × Embedding)

/-- Map.get: the value of the first entry with the given key, if any. -/
def mapGet : EmbMap → String → Option Embedding
  | [], _ => none
  | (k, v) :: rest, h => if k = h then some v else mapGet rest h

/-- Map.has: whether an entry with the given key is present. -/
def mapHas (m : EmbMap) (h : String) : Bool := (mapGet m h).isSome

/-- Map.set: replace the value in place when the key is present, otherwise
append a new entry (a JS Map keeps first-insertion order and updates in
place). -/
def mapSet : EmbMap → String → Embedding → EmbMap
  | [], k, v => [(k, v)]
  | (k1, v1) :: rest, k, v =>
    if k1 = k then (k1, v) :: rest else (k1, v1) :: mapSet rest k v

/-- Map.delete: remove the entry with the given key. -/
def mapDelete : EmbMap → String → EmbMap
  | [], _ => []
  | (k1, v1) :: rest, k => if k1 = k then rest else (k1, v1) :: mapDelete rest k

/-- The module-level cache state of background.js: the embeddingCache Map,
the embeddingCacheOrder array (oldest first, newest last) and the
embeddingCacheLoaded flag. -/
structure CacheState where
  cache : EmbMap
  order : List String
  loaded : Bool
deriving DecidableEq

/-- MAX_EMBEDDING_CACHE_ENTRIES from background.js line 12. -/
def MAX_EMBEDDING_CACHE_ENTRIES : Nat := 20

/-- The splice call of rememberEmbedding: remove the first occurrence of a
hash from the order array (indexOf finds the first occurrence). -/
def removeFirst : List String → String → List String
  | [], _ => []
  | x :: xs, h => if x = h then xs else x :: removeFirst xs h

/-- The while loop of rememberEmbedding (background.js lines 123 to 128):
while the order array is longer than the bound, shift the oldest hash and,
when it is truthy, delete it from the Map. -/
def evictLoop : EmbMap → List String → EmbMap × List String
  | c, [] => (c, [])
  | c, o :: rest =>
    if (o :: rest).length > MAX_EMBEDDING_CACHE_ENTRIES then
      evictLoop (if o ≠ "" then mapDelete c o else c) rest
    else (c, o :: rest)

/-- rememberEmbedding (background.js lines 116 to 130): set the Map entry,
move the hash to the most-recently-used end of the order array, run the
eviction loop. The final persistEmbeddingCache call is modelled separately
as the snapshot value that call would write. -/
def rememberEmbedding (s : CacheState) (hash : String) (emb : Embedding) : CacheState :=
  let c1 := mapSet s.cache hash emb
  let o1 := removeFirst s.order hash ++ [hash]
  let r := evictLoop c1 o1
  ⟨r.1, r.2, s.loaded⟩

/-- One entry of the persisted snapshot: the hash together with the Map value
for it at persist time (the Map lookup can miss, giving undefined, hence the
Option). -/
abbrev SnapEntry := String × Option Embedding

/-- The value stored under embedding_cache_v1: a version tag and the entry
list in recency order, oldest first. -/
structure Snapshot where
  version : Int
  entries : List SnapEntry
deriving DecidableEq

/-- persistEmbeddingCache (background.js lines 99 to 114): the snapshot the
call writes to chrome.storage.local, one entry per hash of the order array in
recency order. -/
def persistEmbeddingCache (s : CacheState) : Snapshot :=
  ⟨1, s.order.map fun h => (h, mapGet s.cache h)⟩

/-- The entry loop of loadEmbeddingCacheFromStorage (background.js lines 85
to 90): each entry with a truthy hash and an array embedding is set into the
Map and its hash pushed onto the order array. -/
def loadEntries : CacheState → List SnapEntry → CacheState
  | s, [] => s
  | s, (h, e) :: rest =>
    match e with
    | some emb =>
      if h ≠ "" then
        loadEntries ⟨mapSet s.cache h emb, s.order ++ [h], s.loaded⟩ rest
      else loadEntries s rest
    | none => loadEntries s rest

/-- The body of loadEmbeddingCacheFromStorage after the loaded-flag check
(background.js lines 81 to 96): read the stored snapshot, run the entry loop
when a snapshot with an entries array is present, and finally set the loaded
flag. The awaited storage read sits between the flag check and the flag set,
so this body is what each task that passed the check executes. -/
def loadBody (s : CacheState) (stored : Option Snapshot) : CacheState :=
  let s1 := match stored with
            | some snap => loadEntries s snap.entries
            | none => s
  ⟨s1.cache, s1.order, true⟩

/-- loadEmbeddingCacheFromStorage (background.js lines 77 to 97): a no-op
when the loaded flag is already set, otherwise the load body. -/
def loadEmbeddingCacheFromStorage (s : CacheState) (stored : Option Snapshot) : CacheState :=
  if s.loaded then s else loadBody s stored

/-- The observable outcome of one getEmbedding call: the returned embedding
and hash, the resulting module cache state, and whether the call computed a
content hash, invoked the embedding capability, and wrote the cache snapshot
to durable storage. -/
structure EmbedOutcome where
  embedding : Option Embedding
  hash : Option String
  state : CacheState
  hashComputed : Bool
  embedderInvoked : Bool
  persisted : Bool
deriving DecidableEq

/-- The normalisation applied by getEmbedding: JavaScript
String.prototype.trim, stripping leading and trailing whitespace (written
over the character list so that it evaluates inside the kernel). -/
def trimString (s : String) : String :=
  ⟨((s.data.dropWhile Char.isWhitespace).reverse.dropWhile Char.isWhitespace).reverse⟩

/-- getEmbedding (background.js lines 132 to 168), parameterised over the
content hash function, the result of the external embedding capability (none
models a load or inference error being thrown, some gives the quantised
vector a successful call produces), and the stored snapshot the lazy cache
load would read. -/
def getEmbedding (hashFn : String → String) (embedRes : Option Embedding)
    (stored : Option Snapshot) (s : CacheState) (text : String) : EmbedOutcome :=
  let normalized := trimString text
  if normalized = "" then ⟨none, none, s, false, false, false⟩
  else
    let s1 := loadEmbeddingCacheFromStorage s stored
    let hash := hashFn normalized
    if mapHas s1.cache hash then ⟨mapGet s1.cache hash, some hash, s1, true, false, false⟩
    else
      match embedRes with
      | none => ⟨none, none, s1, true, true, false⟩
      | some vec =>
        if vec.length = 0 then ⟨none, none, s1, true, true, false⟩
        else ⟨some vec, some hash, rememberEmbedding s1 hash vec, true, true, true⟩

/-- A JavaScript truthiness filter on optional strings: an absent or empty
string is falsy and becomes null. -/
def truthyStr : Option String → Option String
  | none => none
  | some s => if s = "" then none else some s

/-- The data.domain or unknown idiom of storeEngagement: a falsy domain
(absent or empty string) falls back to the string unknown. -/
def orUnknown (o : Option String) : String := (truthyStr o).getD "unknown"

/-- One embedding sample of a daily record (background.js lines 215 to 222). -/
structure Sample where
  domain : String
  contentType : String
  topic : Option String
  hash : Option String
  embedding : List Int
  capturedAt : Int
deriving DecidableEq

/-- A daily aggregate record as stored under a day key. The three fields that
newer code added (byTopic, byTopicCounts, embeddingSamples) are optional so
that pre-migration snapshots lacking them can be represented; byDomain,
byContentType and totalMs are present in every record the code ever wrote. -/
structure DayRecord where
  byDomain : List (String × Int)
  byContentType : List (String × Int)
  byTopic : Option (List (String × Int))
  byTopicCounts : Option (List (String × Int))
  totalMs : Int
  embeddingSamples : Option (List Sample)
deriving DecidableEq

/-- The fresh record storeEngagement creates when no record exists for the
day (background.js lines 177 to 185). -/
def defaultDayRecord : DayRecord := ⟨[], [], some [], some [], 0, some []⟩

/-- The per-key increment idiom m at k equals m at k or zero, plus d: update
the entry in place when the key is present, otherwise append it (JS object
string keys keep insertion order). -/
def bump : List (String × Int) → String → Int → List (String × Int)
  | [], k, d => [(k, d)]
  | (k1, v) :: rest, k, d =>
    if k1 = k then (k1, v + d) :: rest else (k1, v) :: bump rest k d

/-- Sum of the values of a string-keyed map. -/
def sumVals : List (String × Int) → Int
  | [] => 0
  | (_, v) :: rest => v + sumVals rest

/-- The enriched engagement event storeEngagement receives: the fields of the
inbound message spread together with the inference results. -/
structure EngagementEvent where
  domain : Option String
  contentType : Option String
  topic : Option String
  deltaMs : Int
  embedding : Option (List Int)
  embeddingHash : Option String
  capturedAt : Int
deriving DecidableEq

/-- storeEngagement (background.js lines 171 to 236) as a pure function from
the stored record for the day (none when absent) and the event to the record
written back: default the record and its migration fields, bump byDomain and
byContentType, bump byTopic and byTopicCounts when the topic is truthy,
append an embedding sample and keep the newest 50 when a non-empty embedding
array is present, and finally add deltaMs to totalMs. -/
def storeEngagement (existing : Option DayRecord) (data : EngagementEvent) : DayRecord :=
  let e0 := existing.getD defaultDayRecord
  let e1 : DayRecord := { e0 with
    byTopic := some (e0.byTopic.getD []),
    byTopicCounts := some (e0.byTopicCounts.getD []),
    embeddingSamples := some (e0.embeddingSamples.getD []) }
  let domain := orUnknown data.domain
  let contentType := orUnknown data.contentType
  let e2 := { e1 with byDomain := bump e1.byDomain domain data.deltaMs }
  let e3 := { e2 with byContentType := bump e2.byContentType contentType data.deltaMs }
  let e4 := match truthyStr data.topic with
    | some topic => { e3 with
        byTopic := some (bump (e3.byTopic.getD []) topic data.deltaMs),
        byTopicCounts := some (bump (e3.byTopicCounts.getD []) topic 1) }
    | none => e3
  let e5 := match data.embedding with
    | some emb =>
      if emb.length > 0 then
        let sample : Sample :=
          ⟨domain, contentType, truthyStr data.topic, truthyStr data.embeddingHash,
           emb, data.capturedAt⟩
        let samples := e4.embeddingSamples.getD [] ++ [sample]
        let kept := if samples.length > 50 then samples.drop (samples.length - 50) else samples
        { e4 with embeddingSamples := some kept }
      else e4
    | none => e4
  { e5 with totalMs := e5.totalMs + data.deltaMs }

/-- The settings object read per event: the three boolean flags the listener
consults. -/
structure Settings where
  enableTracking : Bool
  includeTitles : Bool
  enableML : Bool
deriving DecidableEq

/-- An inbound engagement_time message. -/
structure Msg where
  title : Option String
  domain : Option String
  contentType : Option String
  deltaMs : Int
  capturedAt : Int
deriving DecidableEq

/-- classifyText (background.js lines 43 to 59) parameterised over the
classification outcome: none models an untrained or failed classifier, which
the function turns into the sentinel unknown; some gives the category the
loaded classifier produced. -/
def classifyText (classifyRes : Option String) : String :=
  match classifyRes with
  | none => "unknown"
  | some c => c

/-- The title the listener works with: msg.title is deleted when
includeTitles is not true, and the surviving value is defaulted to the empty
string by the msg.title-or-empty idiom. -/
def effectiveTitle (st : Settings) (msg : Msg) : String :=
  if st.includeTitles then (truthyStr msg.title).getD "" else ""

/-- Everything observable about one run of the engagement_time branch of the
message listener: the response fields, the record written for the day (none
when tracking is disabled and nothing is stored), the resulting cache state,
and the capability-invocation flags of the inference stage. -/
structure HandlerResult where
  success : Bool
  disabled : Bool
  topic : Option String
  embedding : Option Embedding
  embeddingHash : Option String
  storedRecord : Option DayRecord
  classifierInvoked : Bool
  hashComputed : Bool
  embedderInvoked : Bool
  persisted : Bool
  cache : CacheState
deriving DecidableEq

/-- The engagement_time branch of the chrome.runtime.onMessage listener
(background.js lines 280 to 328), parameterised over the stored settings, the
classification outcome, the content hash function, the embedding capability
outcome, the stored cache snapshot, the module cache state and the stored
record for the day: refuse when tracking is off, drop the title unless
includeTitles is set, classify and embed only when enableML is set and the
raw title is longer than 5 characters, and always store the engagement event
with whatever enrichment was obtained. -/
def handleEngagement (settings : Option Settings) (msg : Msg)
    (classifyRes : Option String) (hashFn : String → String)
    (embedRes : Option Embedding) (stored : Option Snapshot)
    (s : CacheState) (existingDay : Option DayRecord) : HandlerResult :=
  match settings with
  | none => ⟨false, true, none, none, none, none, false, false, false, false, s⟩
  | some st =>
    if st.enableTracking = false then
      ⟨false, true, none, none, none, none, false, false, false, false, s⟩
    else
      let title := effectiveTitle st msg
      if st.enableML then
        if title ≠ "" ∧ title.length > 5 then
          let topic := classifyText classifyRes
          let out := getEmbedding hashFn embedRes stored s title
          let day := storeEngagement existingDay
            ⟨msg.domain, msg.contentType, some topic, msg.deltaMs,
             out.embedding, out.hash, msg.capturedAt⟩
          ⟨true, false, some topic, out.embedding, out.hash, some day,
           true, out.hashComputed, out.embedderInvoked, out.persisted, out.state⟩
        else
          let day := storeEngagement existingDay
            ⟨msg.domain, msg.contentType, none, msg.deltaMs, none, none, msg.capturedAt⟩
          ⟨true, false, none, none, none, some day,
           false, false, false, false, s⟩
      else
        let day := storeEngagement existingDay
          ⟨msg.domain, msg.contentType, none, msg.deltaMs, none, none, msg.capturedAt⟩
        ⟨true, false, none, none, none, some day,
         false, false, false, false, s⟩

/-- A spec-level cache operation: get is the Map read of the cache hit path
(embeddingCache.has and embeddingCache.get, which mutate nothing), put is
rememberEmbedding. -/
inductive CacheOp where
  | get (hash : String)
  | put (hash : String) (emb : Embedding)
deriving DecidableEq

/-- Apply one cache operation to the module cache state: a get is a pure Map
read and leaves the state unchanged (the cache hit path of getEmbedding
returns without touching embeddingCacheOrder), a put runs rememberEmbedding. -/
def applyOp (s : CacheState) : CacheOp → CacheState
  | CacheOp.get _ => s
  | CacheOp.put h v => rememberEmbedding s h v

/-- Apply a sequence of cache operations left to right. -/
def applyOps (s : CacheState) (ops : List CacheOp) : CacheState :=
  ops.foldl applyOp s

/-- An operation is valid when any hash it puts is a real digest, hence a
non-empty string (hashText always yields a 64-character hex digest). -/
def opValid : CacheOp → Bool
  | CacheOp.get _ => true
  | CacheOp.put h _ => h ≠ ""

/-- Well-formedness of the module cache state, maintained by the code between
operations: the recency array has no duplicate hashes, every hash in it is a
non-empty string resident in the Map, every Map entry's hash appears in the
recency array, and the Map has no duplicate keys. -/
def WF (s : CacheState) : Prop :=
  s.order.Nodup ∧
  (∀ h ∈ s.order, h ≠ "" ∧ (mapGet s.cache h).isSome = true) ∧
  (∀ p ∈ s.cache, p.1 ∈ s.order) ∧
  (s.cache.map Prod.fst).Nodup

instance (s : CacheState) : Decidable (WF s) := by
  unfold WF
  infer_instance

/-- A concrete well-formed cache state holding exactly 20 resident entries,
hashes h00 through h19 in recency order, oldest first. -/
def cexHashes : List String :=
  ["h00", "h01", "h02", "h03", "h04", "h05", "h06", "h07", "h08", "h09",
   "h10", "h11", "h12", "h13", "h14", "h15", "h16", "h17", "h18", "h19"]

/-- The 20-entry cache state built from cexHashes, every hash mapped to the
vector containing 0, with the loaded flag set. -/
def cex20 : CacheState := ⟨cexHashes.map fun h => (h, ([0] : Embedding)), cexHashes, true⟩

lemma mapGet_cons (k1 : String) (v1 : Embedding) (rest : EmbMap) (k : String) :
    mapGet ((k1, v1) :: rest) k = if k1 = k then some v1 else mapGet rest k := rfl

lemma mapSet_cons (k1 : String) (v1 : Embedding) (rest : EmbMap) (k : String) (v : Embedding) :
    mapSet ((k1, v1) :: rest) k v =
      if k1 = k then (k1, v) :: rest else (k1, v1) :: mapSet rest k v := rfl

lemma mapDelete_cons (k1 : String) (v1 : Embedding) (rest : EmbMap) (k : String) :
    mapDelete ((k1, v1) :: rest) k =
      if k1 = k then rest else (k1, v1) :: mapDelete rest k := rfl

lemma removeFirst_cons (x : String) (xs : List String) (a : String) :
    removeFirst (x :: xs) a = if x = a then xs else x :: removeFirst xs a := rfl

lemma mapGet_mapSet_self (m : EmbMap) (k : String) (v : Embedding) :
    mapGet (mapSet m k v) k = some v := by
  induction m with
  | nil => simp [mapSet, mapGet]
  | cons p rest ih =>
    obtain ⟨k1, v1⟩ := p
    by_cases h : k1 = k
    · simp [mapSet_cons, mapGet_cons, h]
    · simp [mapSet_cons, mapGet_cons, h, ih]

lemma mapGet_mapSet_ne (m : EmbMap) (k k2 : String) (v : Embedding) (h : k2 ≠ k) :
    mapGet (mapSet m k v) k2 = mapGet m k2 := by
  have hne : k ≠ k2 := Ne.symm h
  induction m with
  | nil => simp [mapSet, mapGet, hne]
  | cons p rest ih =>
    obtain ⟨k1, v1⟩ := p
    by_cases h1 : k1 = k
    · subst h1
      simp [mapSet_cons, mapGet_cons, hne]
    · by_cases h2 : k1 = k2
      · simp [mapSet_cons, mapGet_cons, h1, h2, h]
      · simp [mapSet_cons, mapGet_cons, h1, h2, ih]

lemma mapGet_mapDelete_ne (m : EmbMap) (k k2 : String) (h : k2 ≠ k) :
    mapGet (mapDelete m k) k2 = mapGet m k2 := by
  induction m with
  | nil => simp [mapDelete]
  | cons p rest ih =>
    obtain ⟨k1, v1⟩ := p
    by_cases h1 : k1 = k
    · subst h1
      have hne : k1 ≠ k2 := Ne.symm h
      simp [mapDelete_cons, mapGet_cons, hne]
    · by_cases h2 : k1 = k2
      · simp [mapDelete_cons, mapGet_cons, h1, h2, h]
      · simp [mapDelete_cons, mapGet_cons, h1, h2, ih]

lemma mapGet_eq_none_iff (m : EmbMap) (k : String) :
    mapGet m k = none ↔ k ∉ m.map Prod.fst := by
  induction m with
  | nil => simp [mapGet]
  | cons p rest ih =>
    obtain ⟨k1, v1⟩ := p
    by_cases h : k1 = k
    · subst h; simp [mapGet_cons]
    · rw [mapGet_cons, if_neg h, ih, List.map_cons]
      simp only [List.mem_cons, not_or]
      constructor
      · intro hk
        exact ⟨fun hh => h hh.symm, hk⟩
      · intro hk
        exact hk.2

lemma mapGet_isSome_iff (m : EmbMap) (k : String) :
    (mapGet m k).isSome = true ↔ k ∈ m.map Prod.fst := by
  rw [← Decidable.not_iff_not, ← mapGet_eq_none_iff m k]
  cases mapGet m k <;> simp

lemma keys_mapSet (m : EmbMap) (k : String) (v : Embedding) :
    (mapSet m k v).map Prod.fst =
      if k ∈ m.map Prod.fst then m.map Prod.fst else m.map Prod.fst ++ [k] := by
  induction m with
  | nil => simp [mapSet]
  | cons p rest ih =>
    obtain ⟨k1, v1⟩ := p
    by_cases h : k1 = k
    · subst h; simp [mapSet_cons]
    · have hne : k ≠ k1 := fun hh => h hh.symm
      by_cases h2 : k ∈ rest.map Prod.fst
      · simp [mapSet_cons, h, h2, ih, hne]
      · simp [mapSet_cons, h, h2, ih, hne]

lemma mem_mapSet (m : EmbMap) (k : String) (v : Embedding) (p : String × Embedding)
    (hp : p ∈ mapSet m k v) : p = (k, v) ∨ p ∈ m := by
  induction m with
  | nil =>
    simp only [mapSet, List.mem_singleton] at hp
    exact Or.inl hp
  | cons q rest ih =>
    obtain ⟨k1, v1⟩ := q
    by_cases h : k1 = k
    · subst h
      rw [mapSet_cons, if_pos rfl] at hp
      rcases List.mem_cons.mp hp with hp | hp
      · exact Or.inl hp
      · exact Or.inr (List.mem_cons_of_mem _ hp)
    · rw [mapSet_cons, if_neg h] at hp
      rcases List.mem_cons.mp hp with hp | hp
      · exact Or.inr (by simp [hp])
      · rcases ih hp with hh | hh
        · exact Or.inl hh
        · exact Or.inr (List.mem_cons_of_mem _ hh)

lemma mem_mapDelete (m : EmbMap) (k : String) (p : String × Embedding)
    (hp : p ∈ mapDelete m k) : p ∈ m := by
  induction m with
  | nil => simp [mapDelete] at hp
  | cons q rest ih =>
    obtain ⟨k1, v1⟩ := q
    by_cases h : k1 = k
    · rw [mapDelete_cons, if_pos h] at hp
      exact List.mem_cons_of_mem _ hp
    · rw [mapDelete_cons, if_neg h] at hp
      rcases List.mem_cons.mp hp with hp | hp
      · simp [hp]
      · exact List.mem_cons_of_mem _ (ih hp)

lemma ne_key_of_mem_mapDelete (m : EmbMap) (k : String) (p : String × Embedding)
    (hnd : (m.map Prod.fst).Nodup) (hp : p ∈ mapDelete m k) : p.1 ≠ k := by
  induction m with
  | nil => simp [mapDelete] at hp
  | cons q rest ih =>
    obtain ⟨k1, v1⟩ := q
    simp only [List.map_cons, List.nodup_cons] at hnd
    by_cases h : k1 = k
    · subst h
      rw [mapDelete_cons, if_pos rfl] at hp
      intro hk
      exact hnd.1 (hk ▸ List.mem_map_of_mem Prod.fst hp)
    · rw [mapDelete_cons, if_neg h] at hp
      rcases List.mem_cons.mp hp with hp | hp
      · rw [hp]
        exact h
      · exact ih hnd.2 hp

lemma keys_mapDelete_sublist (m : EmbMap) (k : String) :
    List.Sublist ((mapDelete m k).map Prod.fst) (m.map Prod.fst) := by
  induction m with
  | nil => simp [mapDelete]
  | cons q rest ih =>
    obtain ⟨k1, v1⟩ := q
    by_cases h : k1 = k
    · rw [mapDelete_cons, if_pos h]
      simp only [List.map_cons]
      exact List.Sublist.cons _ (List.Sublist.refl _)
    · rw [mapDelete_cons, if_neg h]
      simp only [List.map_cons]
      exact List.Sublist.cons₂ _ ih

lemma mapGet_mapDelete_self (m : EmbMap) (k : String)
    (hnd : (m.map Prod.fst).Nodup) : mapGet (mapDelete m k) k = none := by
  rw [mapGet_eq_none_iff]
  intro hk
  obtain ⟨p, hp, hpk⟩ := List.mem_map.mp hk
  exact ne_key_of_mem_mapDelete m k p hnd hp hpk

lemma removeFirst_of_not_mem (l : List String) (a : String) (h : a ∉ l) :
    removeFirst l a = l := by
  induction l with
  | nil => rfl
  | cons x xs ih =>
    simp only [List.mem_cons, not_or] at h
    rw [removeFirst_cons, if_neg (fun hh => h.1 hh.symm), ih h.2]

lemma length_removeFirst_of_mem (l : List String) (a : String) (h : a ∈ l) :
    (removeFirst l a).length + 1 = l.length := by
  induction l with
  | nil => simp at h
  | cons x xs ih =>
    by_cases hx : x = a
    · simp [removeFirst_cons, hx]
    · have hmem : a ∈ xs := by
        rcases List.mem_cons.mp h with hh | hh
        · exact absurd hh.symm hx
        · exact hh
      simp [removeFirst_cons, hx, ih hmem]

lemma mem_removeFirst (l : List String) (a x : String) (h : x ∈ removeFirst l a) : x ∈ l := by
  induction l with
  | nil => simp [removeFirst] at h
  | cons y ys ih =>
    by_cases hy : y = a
    · rw [removeFirst_cons, if_pos hy] at h
      exact List.mem_cons_of_mem _ h
    · rw [removeFirst_cons, if_neg hy] at h
      rcases List.mem_cons.mp h with h | h
      · simp [h]
      · exact List.mem_cons_of_mem _ (ih h)

lemma mem_removeFirst_of_ne (l : List String) (a x : String) (hx : x ≠ a) (h : x ∈ l) :
    x ∈ removeFirst l a := by
  induction l with
  | nil => simp at h
  | cons y ys ih =>
    by_cases hy : y = a
    · rw [removeFirst_cons, if_pos hy]
      rcases List.mem_cons.mp h with hh | hh
      · exact absurd (hh.trans hy) hx
      · exact hh
    · rw [removeFirst_cons, if_neg hy]
      rcases List.mem_cons.mp h with hh | hh
      · exact hh ▸ List.mem_cons_self y (removeFirst ys a)
      · exact List.mem_cons_of_mem _ (ih hh)

lemma nodup_removeFirst (l : List String) (a : String) (h : l.Nodup) :
    (removeFirst l a).Nodup := by
  induction l with
  | nil => simp [removeFirst]
  | cons y ys ih =>
    simp only [List.nodup_cons] at h
    by_cases hy : y = a
    · rw [removeFirst_cons, if_pos hy]
      exact h.2
    · rw [removeFirst_cons, if_neg hy]
      exact List.nodup_cons.mpr ⟨fun hm => h.1 (mem_removeFirst ys a y hm), ih h.2⟩

lemma not_mem_removeFirst_self (l : List String) (a : String) (h : l.Nodup) :
    a ∉ removeFirst l a := by
  induction l with
  | nil => simp [removeFirst]
  | cons y ys ih =>
    simp only [List.nodup_cons] at h
    by_cases hy : y = a
    · rw [removeFirst_cons, if_pos hy]
      exact hy ▸ h.1
    · rw [removeFirst_cons, if_neg hy]
      intro hm
      rcases List.mem_cons.mp hm with hh | hh
      · exact hy hh.symm
      · exact ih h.2 hh

lemma evictLoop_of_le (c : EmbMap) (order : List String)
    (h : order.length ≤ MAX_EMBEDDING_CACHE_ENTRIES) : evictLoop c order = (c, order) := by
  cases order with
  | nil => rfl
  | cons o rest =>
    unfold evictLoop
    rw [if_neg (Nat.not_lt.mpr h)]

lemma evictLoop_of_eq_succ (c : EmbMap) (o : String) (rest : List String)
    (h0 : o ≠ "") (h : rest.length = MAX_EMBEDDING_CACHE_ENTRIES) :
    evictLoop c (o :: rest) = (mapDelete c o, rest) := by
  unfold evictLoop
  rw [if_pos (by simp [h]), if_pos h0]
  exact evictLoop_of_le _ _ (le_of_eq h)

lemma remember_eq_of_mem (s : CacheState) (h : String) (v : Embedding)
    (hmem : h ∈ s.order) (hb : s.order.length ≤ MAX_EMBEDDING_CACHE_ENTRIES) :
    rememberEmbedding s h v = ⟨mapSet s.cache h v, removeFirst s.order h ++ [h], s.loaded⟩ := by
  unfold rememberEmbedding
  dsimp only
  have hlen : (removeFirst s.order h ++ [h]).length ≤ MAX_EMBEDDING_CACHE_ENTRIES := by
    have := length_removeFirst_of_mem s.order h hmem
    simp only [List.length_append, List.length_singleton]
    omega
  rw [evictLoop_of_le _ _ hlen]

lemma remember_eq_of_not_mem_small (s : CacheState) (h : String) (v : Embedding)
    (hmem : h ∉ s.order) (hb : s.order.length + 1 ≤ MAX_EMBEDDING_CACHE_ENTRIES) :
    rememberEmbedding s h v = ⟨mapSet s.cache h v, s.order ++ [h], s.loaded⟩ := by
  unfold rememberEmbedding
  dsimp only
  rw [removeFirst_of_not_mem s.order h hmem]
  have hlen : (s.order ++ [h]).length ≤ MAX_EMBEDDING_CACHE_ENTRIES := by
    simp only [List.length_append, List.length_singleton]
    omega
  rw [evictLoop_of_le _ _ hlen]

lemma remember_eq_of_not_mem_full (s : CacheState) (h : String) (v : Embedding)
    (h0 : String) (rest : List String)
    (hmem : h ∉ s.order) (hord : s.order = h0 :: rest)
    (hlen : s.order.length = MAX_EMBEDDING_CACHE_ENTRIES) (h0ne : h0 ≠ "") :
    rememberEmbedding s h v =
      ⟨mapDelete (mapSet s.cache h v) h0, rest ++ [h], s.loaded⟩ := by
  unfold rememberEmbedding
  dsimp only
  rw [removeFirst_of_not_mem s.order h hmem, hord]
  have hrest : (rest ++ [h]).length = MAX_EMBEDDING_CACHE_ENTRIES := by
    rw [hord] at hlen
    simp only [List.length_cons] at hlen
    simp only [List.length_append, List.length_singleton]
    omega
  have : (h0 :: rest) ++ [h] = h0 :: (rest ++ [h]) := by simp
  rw [this, evictLoop_of_eq_succ _ _ _ h0ne hrest]

lemma WF_remember (s : CacheState) (h : String) (v : Embedding)
    (hwf : WF s) (hb : s.order.length ≤ MAX_EMBEDDING_CACHE_ENTRIES) (hne : h ≠ "") :
    WF (rememberEmbedding s h v) ∧
      (rememberEmbedding s h v).order.length ≤ MAX_EMBEDDING_CACHE_ENTRIES := by
  obtain ⟨hnd, hres, hkeys, hknd⟩ := hwf
  have hsub : ∀ k, k ∈ s.cache.map Prod.fst → k ∈ s.order := by
    intro k hk
    obtain ⟨p, hp, hpk⟩ := List.mem_map.mp hk
    exact hpk ▸ hkeys p hp
  by_cases hmem : h ∈ s.order
  · -- refresh of a resident hash: in-place set, move to most-recently-used end
    rw [remember_eq_of_mem s h v hmem hb]
    have hink : h ∈ s.cache.map Prod.fst :=
      (mapGet_isSome_iff s.cache h).mp (hres h hmem).2
    have hkeq : (mapSet s.cache h v).map Prod.fst = s.cache.map Prod.fst := by
      rw [keys_mapSet, if_pos hink]
    refine ⟨⟨?_, ?_, ?_, ?_⟩, ?_⟩
    · simp only [List.nodup_append, List.nodup_cons, List.nodup_nil]
      refine ⟨nodup_removeFirst _ _ hnd, by simp, ?_⟩
      intro x hx
      simp only [List.mem_singleton]
      intro hxh
      exact not_mem_removeFirst_self s.order h hnd (hxh ▸ hx)
    · intro h2 hh2
      rcases List.mem_append.mp hh2 with hh | hh
      · have hmem2 := mem_removeFirst _ _ _ hh
        have hne2 : h2 ≠ h := fun hh3 => not_mem_removeFirst_self s.order h hnd (hh3 ▸ hh)
        refine ⟨(hres h2 hmem2).1, ?_⟩
        rw [mapGet_mapSet_ne _ _ _ _ hne2]
        exact (hres h2 hmem2).2
      · have : h2 = h := List.mem_singleton.mp hh
        subst this
        exact ⟨hne, by rw [mapGet_mapSet_self]; rfl⟩
    · intro p hp
      rcases mem_mapSet _ _ _ _ hp with hh | hh
      · subst hh
        exact List.mem_append.mpr (Or.inr (List.mem_singleton.mpr rfl))
      · by_cases hph : p.1 = h
        · exact List.mem_append.mpr (Or.inr (List.mem_singleton.mpr hph))
        · exact List.mem_append.mpr
            (Or.inl (mem_removeFirst_of_ne _ _ _ hph (hkeys p hh)))
    · rw [hkeq]
      exact hknd
    · simp only [List.length_append, List.length_singleton]
      have := length_removeFirst_of_mem s.order h hmem
      omega
  · have hnink : h ∉ s.cache.map Prod.fst := fun hk => hmem (hsub h hk)
    have hkeq : (mapSet s.cache h v).map Prod.fst = s.cache.map Prod.fst ++ [h] := by
      rw [keys_mapSet, if_neg hnink]
    have hkeq_nd : ((mapSet s.cache h v).map Prod.fst).Nodup := by
      rw [hkeq]
      simp only [List.nodup_append, List.nodup_cons, List.nodup_nil]
      refine ⟨hknd, by simp, ?_⟩
      intro x hx
      simp only [List.mem_singleton]
      intro hxh
      exact hnink (hxh ▸ hx)
    by_cases hfull : s.order.length = MAX_EMBEDDING_CACHE_ENTRIES
    · -- insertion overflow: the front of the recency array is evicted
      obtain ⟨h0, rest, hord⟩ : ∃ h0 rest, s.order = h0 :: rest := by
        cases hcs : s.order with
        | nil => rw [hcs] at hfull; simp [MAX_EMBEDDING_CACHE_ENTRIES] at hfull
        | cons a l => exact ⟨a, l, rfl⟩
      have h0mem : h0 ∈ s.order := by rw [hord]; exact List.mem_cons_self _ _
      have h0ne : h0 ≠ "" := (hres h0 h0mem).1
      rw [remember_eq_of_not_mem_full s h v h0 rest hmem hord hfull h0ne]
      have hndrest : rest.Nodup ∧ h0 ∉ rest := by
        rw [hord] at hnd
        exact ⟨(List.nodup_cons.mp hnd).2, (List.nodup_cons.mp hnd).1⟩
      have hhrest : h ∉ rest := fun hh => hmem (hord ▸ List.mem_cons_of_mem _ hh)
      refine ⟨⟨?_, ?_, ?_, ?_⟩, ?_⟩
      · simp only [List.nodup_append, List.nodup_cons, List.nodup_nil]
        refine ⟨hndrest.1, by simp, ?_⟩
        intro x hx
        simp only [List.mem_singleton]
        intro hxh
        exact hhrest (hxh ▸ hx)
      · intro h2 hh2
        rcases List.mem_append.mp hh2 with hh | hh
        · have hmem2 : h2 ∈ s.order := hord ▸ List.mem_cons_of_mem _ hh
          have hne0 : h2 ≠ h0 := fun hh3 => hndrest.2 (hh3 ▸ hh)
          have hneh : h2 ≠ h := fun hh3 => hhrest (hh3 ▸ hh)
          refine ⟨(hres h2 hmem2).1, ?_⟩
          rw [mapGet_mapDelete_ne _ _ _ hne0, mapGet_mapSet_ne _ _ _ _ hneh]
          exact (hres h2 hmem2).2
        · have : h2 = h := List.mem_singleton.mp hh
          subst this
          have hne0 : h2 ≠ h0 := fun hh3 => hmem (hh3 ▸ h0mem)
          refine ⟨hne, ?_⟩
          rw [mapGet_mapDelete_ne _ _ _ hne0, mapGet_mapSet_self]
          rfl
      · intro p hp
        have hp1 := mem_mapDelete _ _ _ hp
        have hpne0 : p.1 ≠ h0 := ne_key_of_mem_mapDelete _ _ _ hkeq_nd hp
        rcases mem_mapSet _ _ _ _ hp1 with hh | hh
        · subst hh
          exact List.mem_append.mpr (Or.inr (List.mem_singleton.mpr rfl))
        · have : p.1 ∈ s.order := hkeys p hh
          rw [hord] at this
          rcases List.mem_cons.mp this with hh3 | hh3
          · exact absurd hh3 hpne0
          · exact List.mem_append.mpr (Or.inl hh3)
      · exact (keys_mapDelete_sublist _ _).nodup hkeq_nd
      · rw [hord] at hfull
        simp only [List.length_cons] at hfull
        simp only [List.length_append, List.length_singleton]
        omega
    · -- room left: plain append, no eviction
      have hb2 : s.order.length + 1 ≤ MAX_EMBEDDING_CACHE_ENTRIES := by omega
      rw [remember_eq_of_not_mem_small s h v hmem hb2]
      refine ⟨⟨?_, ?_, ?_, ?_⟩, ?_⟩
      · simp only [List.nodup_append, List.nodup_cons, List.nodup_nil]
        refine ⟨hnd, by simp, ?_⟩
        intro x hx
        simp only [List.mem_singleton]
        intro hxh
        exact hmem (hxh ▸ hx)
      · intro h2 hh2
        rcases List.mem_append.mp hh2 with hh | hh
        · have hneh : h2 ≠ h := fun hh3 => hmem (hh3 ▸ hh)
          refine ⟨(hres h2 hh).1, ?_⟩
          rw [mapGet_mapSet_ne _ _ _ _ hneh]
          exact (hres h2 hh).2
        · have : h2 = h := List.mem_singleton.mp hh
          subst this
          exact ⟨hne, by rw [mapGet_mapSet_self]; rfl⟩
      · intro p hp
        rcases mem_mapSet _ _ _ _ hp with hh | hh
        · subst hh
          exact List.mem_append.mpr (Or.inr (List.mem_singleton.mpr rfl))
        · exact List.mem_append.mpr (Or.inl (hkeys p hh))
      · rw [hkeq]
        simp only [List.nodup_append, List.nodup_cons, List.nodup_nil]
        refine ⟨hknd, by simp, ?_⟩
        intro x hx
        simp only [List.mem_singleton]
        intro hxh
        exact hnink (hxh ▸ hx)
      · simp only [List.length_append, List.length_singleton]
        omega

lemma cache_length_le (s : CacheState) (hwf : WF s) : s.cache.length ≤ s.order.length := by
  obtain ⟨hnd, hres, hkeys, hknd⟩ := hwf
  have hsub : s.cache.map Prod.fst ⊆ s.order := by
    intro k hk
    obtain ⟨p, hp, hpk⟩ := List.mem_map.mp hk
    exact hpk ▸ hkeys p hp
  calc s.cache.length = (s.cache.map Prod.fst).length := (List.length_map _ _).symm
    _ ≤ s.order.length := (List.subperm_of_subset hknd hsub).length_le

lemma WF_applyOps (s : CacheState) (ops : List CacheOp)
    (hwf : WF s) (hb : s.order.length ≤ MAX_EMBEDDING_CACHE_ENTRIES)
    (hv : ∀ op ∈ ops, opValid op = true) :
    WF (applyOps s ops) ∧
      (applyOps s ops).order.length ≤ MAX_EMBEDDING_CACHE_ENTRIES := by
  induction ops generalizing s with
  | nil => exact ⟨hwf, hb⟩
  | cons op rest ih =>
    have hv1 : opValid op = true := hv op (List.mem_cons_self _ _)
    have hvr : ∀ o ∈ rest, opValid o = true := fun o ho => hv o (List.mem_cons_of_mem _ ho)
    cases op with
    | get h =>
      have : applyOps s (CacheOp.get h :: rest) = applyOps s rest := rfl
      rw [this]
      exact ih s hwf hb hvr
    | put h v =>
      have hne : h ≠ "" := by simpa [opValid] using hv1
      have hstep := WF_remember s h v hwf hb hne
      have : applyOps s (CacheOp.put h v :: rest) = applyOps (rememberEmbedding s h v) rest := rfl
      rw [this]
      exact ih (rememberEmbedding s h v) hstep.1 hstep.2 hvr

lemma getEmbedding_hit_state (hashFn : String → String) (embedRes : Option Embedding)
    (stored : Option Snapshot) (s : CacheState) (t : String)
    (hld : s.loaded = true) (hne : ¬ trimString t = "")
    (hhit : mapHas s.cache (hashFn (trimString t)) = true) :
    (getEmbedding hashFn embedRes stored s t).state = s := by
  unfold getEmbedding
  rw [if_neg hne]
  have hload : loadEmbeddingCacheFromStorage s stored = s := by
    unfold loadEmbeddingCacheFromStorage
    rw [hld]
    rfl
  simp only [hload, hhit, if_true]

lemma loadEntries_of_resident (sc : EmbMap) (hs : List String) :
    ∀ acc : CacheState,
      (∀ h ∈ hs, h ≠ "" ∧ (mapGet sc h).isSome = true) →
      (loadEntries acc (hs.map fun h => (h, mapGet sc h))).order = acc.order ++ hs ∧
      (loadEntries acc (hs.map fun h => (h, mapGet sc h))).loaded = acc.loaded ∧
      ∀ k, mapGet (loadEntries acc (hs.map fun h => (h, mapGet sc h))).cache k =
        if k ∈ hs then mapGet sc k else mapGet acc.cache k := by
  induction hs with
  | nil =>
    intro acc _
    simp [loadEntries]
  | cons h rest ih =>
    intro acc hres
    have hh := hres h (List.mem_cons_self _ _)
    obtain ⟨emb, hemb⟩ := Option.isSome_iff_exists.mp hh.2
    have hrest : ∀ h2 ∈ rest, h2 ≠ "" ∧ (mapGet sc h2).isSome = true :=
      fun h2 hm => hres h2 (List.mem_cons_of_mem _ hm)
    have hstep : loadEntries acc ((h :: rest).map fun x => (x, mapGet sc x)) =
        loadEntries ⟨mapSet acc.cache h emb, acc.order ++ [h], acc.loaded⟩
          (rest.map fun x => (x, mapGet sc x)) := by
      simp only [List.map_cons, loadEntries, hemb]
      rw [if_pos hh.1]
    rw [hstep]
    obtain ⟨ho, hl, hc⟩ := ih ⟨mapSet acc.cache h emb, acc.order ++ [h], acc.loaded⟩ hrest
    refine ⟨?_, hl, ?_⟩
    · rw [ho]
      simp
    · intro k
      rw [hc k]
      by_cases hk : k ∈ rest
      · simp [hk]
      · by_cases hkh : k = h
        · subst hkh
          simp [hk, mapGet_mapSet_self, hemb]
        · simp only [hk, if_false, List.mem_cons, hkh, false_or]
          rw [mapGet_mapSet_ne _ _ _ _ hkh]

lemma sumVals_bump (m : List (String × Int)) (k : String) (d : Int) :
    sumVals (bump m k d) = sumVals m + d := by
  induction m with
  | nil => simp [bump, sumVals]
  | cons p rest ih =>
    obtain ⟨k1, v⟩ := p
    by_cases h : k1 = k
    · simp only [bump, if_pos h, sumVals]
      ring
    · simp only [bump, if_neg h, sumVals, ih]
      ring

lemma storeEngagement_totalMs (ex : Option DayRecord) (d : EngagementEvent) :
    (storeEngagement ex d).totalMs = (ex.getD defaultDayRecord).totalMs + d.deltaMs := by
  unfold storeEngagement
  cases truthyStr d.topic <;> cases d.embedding <;> dsimp only <;> try rfl
  all_goals split <;> rfl

lemma storeEngagement_byDomain (ex : Option DayRecord) (d : EngagementEvent) :
    (storeEngagement ex d).byDomain =
      bump (ex.getD defaultDayRecord).byDomain (orUnknown d.domain) d.deltaMs := by
  unfold storeEngagement
  cases truthyStr d.topic <;> cases d.embedding <;> dsimp only <;> try rfl
  all_goals split <;> rfl

lemma storeEngagement_migrated (ex : Option DayRecord) (d : EngagementEvent) :
    (storeEngagement ex d).byTopic.isSome = true ∧
    (storeEngagement ex d).byTopicCounts.isSome = true ∧
    (storeEngagement ex d).embeddingSamples.isSome = true := by
  unfold storeEngagement
  cases truthyStr d.topic <;> cases d.embedding <;> dsimp only <;> try exact ⟨rfl, rfl, rfl⟩
  all_goals split <;> exact ⟨rfl, rfl, rfl⟩

lemma remember_evicts_front (s : CacheState) (h : String) (v : Embedding)
    (h0 : String) (rest : List String)
    (hwf : WF s) (_hne : h ≠ "") (hfresh : h ∉ s.order) (hord : s.order = h0 :: rest)
    (hlen : s.order.length = MAX_EMBEDDING_CACHE_ENTRIES) :
    (rememberEmbedding s h v).order = rest ++ [h] ∧
    mapGet (rememberEmbedding s h v).cache h0 = none ∧
    mapGet (rememberEmbedding s h v).cache h = some v ∧
    ∀ h2 ∈ rest, mapGet (rememberEmbedding s h v).cache h2 = mapGet s.cache h2 := by
  obtain ⟨hnd, hres, hkeys, hknd⟩ := hwf
  have h0mem : h0 ∈ s.order := by rw [hord]; exact List.mem_cons_self _ _
  have h0ne : h0 ≠ "" := (hres h0 h0mem).1
  rw [remember_eq_of_not_mem_full s h v h0 rest hfresh hord hlen h0ne]
  have hnink : h ∉ s.cache.map Prod.fst := by
    intro hk
    obtain ⟨p, hp, hpk⟩ := List.mem_map.mp hk
    exact hfresh (hpk ▸ hkeys p hp)
  have hkeq_nd : ((mapSet s.cache h v).map Prod.fst).Nodup := by
    rw [keys_mapSet, if_neg hnink]
    simp only [List.nodup_append, List.nodup_cons, List.nodup_nil]
    refine ⟨hknd, by simp, ?_⟩
    intro x hx
    simp only [List.mem_singleton]
    intro hxh
    exact hnink (hxh ▸ hx)
  have hne0 : h ≠ h0 := fun hh => hfresh (hh ▸ h0mem)
  have h0notrest : h0 ∉ rest := (List.nodup_cons.mp (hord ▸ hnd)).1
  refine ⟨rfl, ?_, ?_, ?_⟩
  · exact mapGet_mapDelete_self _ _ hkeq_nd
  · rw [mapGet_mapDelete_ne _ _ _ hne0, mapGet_mapSet_self]
  · intro h2 hm
    have hmem2 : h2 ∈ s.order := by rw [hord]; exact List.mem_cons_of_mem _ hm
    have hne02 : h2 ≠ h0 := fun hh => h0notrest (hh ▸ hm)
    have hneh2 : h2 ≠ h := fun hh => hfresh (hh ▸ hmem2)
    rw [mapGet_mapDelete_ne _ _ _ hne02, mapGet_mapSet_ne _ _ _ _ hneh2]

/-- Claim C1, counterexample. The claim says recency is refreshed by a
successful get of a resident hash, so that after a get of the oldest hash h00
an overflowing put should evict h01, the least-recently-accessed entry. On
the 20-entry state cex20, a getEmbedding hit on h00 succeeds (returning its
vector) and leaves the state untouched, and the subsequent put of the fresh
hash h20 nevertheless evicts h00 itself while h01 survives: eviction follows
insertion recency only, refuting the claim as stated. -/
theorem c1_counterexample :
    (getEmbedding (fun t => t) none none cex20 "h00").embedding = some [0] ∧
    (getEmbedding (fun t => t) none none cex20 "h00").state = cex20 ∧
    mapGet (getEmbedding (fun t => t) (some [9]) none
      ((getEmbedding (fun t => t) none none cex20 "h00").state) "h20").state.cache "h00"
      = none ∧
    mapGet (getEmbedding (fun t => t) (some [9]) none
      ((getEmbedding (fun t => t) none none cex20 "h00").state) "h20").state.cache "h01"
      = some [0] := by
  decide

/-- Claim C1 (amended): for every well-formed cache state holding
MAX_EMBEDDING_CACHE_ENTRIES (20) entries, a put of a 21st distinct hash
evicts exactly the least-recently-inserted entry, where recency is refreshed
by put (including re-insertion of an existing key, which moves it to
most-recently-used) but not by a successful get of a resident hash (a cache
hit leaves the state unchanged); after the put, the evicted hash is no
longer retrievable via get and the other 19 plus the new one are. -/
theorem c1_lru_eviction (s : CacheState) (h0 hn : String) (rest : List String) (v : Embedding)
    (hwf : WF s) (hord : s.order = h0 :: rest)
    (hlen : s.order.length = MAX_EMBEDDING_CACHE_ENTRIES)
    (hfresh : hn ∉ s.order) (hne : hn ≠ "") :
    mapGet (rememberEmbedding s hn v).cache h0 = none ∧
    mapGet (rememberEmbedding s hn v).cache hn = some v ∧
    (rememberEmbedding s hn v).order = rest ++ [hn] ∧
    (∀ h ∈ rest, mapGet (rememberEmbedding s hn v).cache h = mapGet s.cache h) ∧
    (∀ hx vx, hx ∈ s.order →
      (rememberEmbedding s hx vx).order = removeFirst s.order hx ++ [hx]) ∧
    (∀ hashFn embedRes stored t, s.loaded = true → ¬ trimString (t : String) = "" →
      mapHas s.cache (hashFn (trimString t)) = true →
      (getEmbedding hashFn embedRes stored s t).state = s) := by
  obtain ⟨ho, h0none, hnsome, hrest⟩ :=
    remember_evicts_front s hn v h0 rest hwf hne hfresh hord hlen
  refine ⟨h0none, hnsome, ho, hrest, ?_, ?_⟩
  · intro hx vx hmem
    rw [remember_eq_of_mem s hx vx hmem (le_of_eq hlen)]
  · intro hashFn embedRes stored t hld htne hhit
    exact getEmbedding_hit_state hashFn embedRes stored s t hld htne hhit

/-- Claim C1 witness: the amended eviction theorem applied to the concrete
20-entry state cex20 and the fresh hash h20. -/
theorem c1_lru_eviction_witness :
    mapGet (rememberEmbedding cex20 "h20" [9]).cache "h00" = none ∧
    mapGet (rememberEmbedding cex20 "h20" [9]).cache "h20" = some [9] := by
  have h := c1_lru_eviction cex20 "h00" "h20"
    ["h01", "h02", "h03", "h04", "h05", "h06", "h07", "h08", "h09", "h10",
     "h11", "h12", "h13", "h14", "h15", "h16", "h17", "h18", "h19"] [9]
    (by decide) (by decide) (by decide) (by decide) (by decide)
  exact ⟨h.1, h.2.1⟩

/-- Claim C4, counterexample. The claim says overflow evicts in strict
least-recently-used order. On the full state cex20, the hash h00 is read
successfully (so h01, untouched since insertion, is the least-recently-used
entry) and the following put of the fresh hash h20 still evicts h00, not
h01: the code orders eviction by insertion only, refuting the claim as
stated. -/
theorem c4_counterexample :
    (getEmbedding (fun t => t) none none cex20 "h00").embedding = some [0] ∧
    mapGet (applyOps cex20 [CacheOp.get "h00", CacheOp.put "h20" [9]]).cache "h00" = none ∧
    mapGet (applyOps cex20 [CacheOp.get "h00", CacheOp.put "h20" [9]]).cache "h01"
      = some [0] := by
  decide

/-- Claim C4 (amended): starting from a well-formed cache state with at most
MAX_EMBEDDING_CACHE_ENTRIES (20) resident entries, after any sequence of get
and put operations the cache state stays well-formed and never holds more
than 20 entries, in the recency array or in the Map; and on insertion
overflow the put evicts exactly the front of the recency array, the
least-recently-inserted hash (gets do not refresh recency). -/
theorem c4_bound_invariant (s : CacheState) (ops : List CacheOp)
    (hwf : WF s) (hb : s.order.length ≤ MAX_EMBEDDING_CACHE_ENTRIES)
    (hv : ∀ op ∈ ops, opValid op = true) :
    WF (applyOps s ops) ∧
    (applyOps s ops).order.length ≤ MAX_EMBEDDING_CACHE_ENTRIES ∧
    (applyOps s ops).cache.length ≤ MAX_EMBEDDING_CACHE_ENTRIES ∧
    (∀ h v h0 rest, h ≠ "" → h ∉ s.order → s.order = h0 :: rest →
      s.order.length = MAX_EMBEDDING_CACHE_ENTRIES →
      (rememberEmbedding s h v).order = rest ++ [h] ∧
      mapGet (rememberEmbedding s h v).cache h0 = none) := by
  obtain ⟨hwf2, hb2⟩ := WF_applyOps s ops hwf hb hv
  refine ⟨hwf2, hb2, le_trans (cache_length_le _ hwf2) hb2, ?_⟩
  intro h v h0 rest hne hfresh hord hlen
  obtain ⟨ho, h0none, _, _⟩ := remember_evicts_front s h v h0 rest hwf hne hfresh hord hlen
  exact ⟨ho, h0none⟩

/-- Claim C4 witness: the bound invariant applied to the concrete full state
cex20 and a two-operation sequence that overflows it. -/
theorem c4_bound_invariant_witness :
    (applyOps cex20 [CacheOp.put "h20" [9], CacheOp.get "h00"]).order.length ≤
      MAX_EMBEDDING_CACHE_ENTRIES := by
  exact (c4_bound_invariant cex20 [CacheOp.put "h20" [9], CacheOp.get "h00"]
    (by decide) (by decide) (by decide)).2.1

/-- Claim C2, counterexample. The claim keys the short-circuit on the
normalised (trimmed) length, but the listener tests the raw title length:
the title of six characters whose trimmed form has length 2 still runs the
full inference, producing a topic, computing a content hash and invoking the
embedding capability instead of short-circuiting to all nulls. -/
theorem c2_counterexample :
    (trimString "aa    ").length ≤ 5 ∧
    (handleEngagement (some ⟨true, true, true⟩)
      ⟨some "aa    ", some "example.com", some "article", 5000, 0⟩
      (some "tech") (fun t => t) (some [1]) none ⟨[], [], false⟩ none).topic
      = some "tech" ∧
    (handleEngagement (some ⟨true, true, true⟩)
      ⟨some "aa    ", some "example.com", some "article", 5000, 0⟩
      (some "tech") (fun t => t) (some [1]) none ⟨[], [], false⟩ none).hashComputed
      = true ∧
    (handleEngagement (some ⟨true, true, true⟩)
      ⟨some "aa    ", some "example.com", some "article", 5000, 0⟩
      (some "tech") (fun t => t) (some [1]) none ⟨[], [], false⟩ none).embedderInvoked
      = true := by
  decide

/-- Claim C2 (amended): for every inbound message whose effective title (the
raw msg.title, kept only when includeTitles is set) has raw length at most 5
characters, and likewise whenever the enableML flag is false, the listener
returns topic, embedding and embeddingHash all null without computing a
content hash, without loading the classifier and without invoking the
embedding capability. The single hypothesis covers both cases: whenever ML
is enabled the effective title must be short. -/
theorem c2_short_circuit (settings : Option Settings) (msg : Msg)
    (classifyRes : Option String) (hashFn : String → String)
    (embedRes : Option Embedding) (stored : Option Snapshot)
    (s : CacheState) (existingDay : Option DayRecord)
    (h : ∀ st, settings = some st → st.enableML = true →
      (effectiveTitle st msg).length ≤ 5) :
    (handleEngagement settings msg classifyRes hashFn embedRes stored s existingDay).topic
      = none ∧
    (handleEngagement settings msg classifyRes hashFn embedRes stored s existingDay).embedding
      = none ∧
    (handleEngagement settings msg classifyRes hashFn embedRes stored s
      existingDay).embeddingHash = none ∧
    (handleEngagement settings msg classifyRes hashFn embedRes stored s
      existingDay).hashComputed = false ∧
    (handleEngagement settings msg classifyRes hashFn embedRes stored s
      existingDay).classifierInvoked = false ∧
    (handleEngagement settings msg classifyRes hashFn embedRes stored s
      existingDay).embedderInvoked = false := by
  cases settings with
  | none => exact ⟨rfl, rfl, rfl, rfl, rfl, rfl⟩
  | some st =>
    unfold handleEngagement
    dsimp only
    by_cases htr : st.enableTracking = false
    · rw [if_pos htr]
      exact ⟨rfl, rfl, rfl, rfl, rfl, rfl⟩
    · rw [if_neg htr]
      by_cases hml : st.enableML = true
      · rw [if_pos hml]
        have hshort := h st rfl hml
        have hcond : ¬ (effectiveTitle st msg ≠ "" ∧
            (effectiveTitle st msg).length > 5) := by
          intro hc
          omega
        rw [if_neg hcond]
        exact ⟨rfl, rfl, rfl, rfl, rfl, rfl⟩
      · rw [if_neg hml]
        exact ⟨rfl, rfl, rfl, rfl, rfl, rfl⟩

/-- Claim C2 witness: the amended short-circuit theorem applied to a message
with the three-character title abc under settings with ML enabled. -/
theorem c2_short_circuit_witness :
    (handleEngagement (some ⟨true, true, true⟩) ⟨some "abc", some "x.com", none, 100, 0⟩
      none (fun t => t) none none ⟨[], [], true⟩ none).topic = none ∧
    (handleEngagement (some ⟨true, true, true⟩) ⟨some "abc", some "x.com", none, 100, 0⟩
      none (fun t => t) none none ⟨[], [], true⟩ none).hashComputed = false := by
  have h := c2_short_circuit (some ⟨true, true, true⟩)
    ⟨some "abc", some "x.com", none, 100, 0⟩ none (fun t => t) none none
    ⟨[], [], true⟩ none
    (by
      intro st hst _
      injection hst with h2
      rw [← h2]
      decide)
  exact ⟨h.1, h.2.2.2.1⟩

/-- Claim C3: for every day record whose totalMs equals the sum of its
byDomain values, after a storeEngagement call with any event the updated
record again satisfies totalMs equal to the sum of the byDomain values: the
two fields are co-updated, each gaining exactly deltaMs. -/
theorem c3_totalMs_matches_byDomain (r : DayRecord) (d : EngagementEvent)
    (h : r.totalMs = sumVals r.byDomain) :
    (storeEngagement (some r) d).totalMs
      = sumVals (storeEngagement (some r) d).byDomain := by
  rw [storeEngagement_totalMs, storeEngagement_byDomain, sumVals_bump]
  simp only [Option.getD_some]
  omega

/-- Claim C3 witness: the invariant preservation applied to a concrete record
with one domain entry. -/
theorem c3_totalMs_matches_byDomain_witness :
    (storeEngagement (some ⟨[("x", 3)], [], some [], some [], 3, some []⟩)
      ⟨some "y", none, some "t", 4, some [1], some "hh", 7⟩).totalMs =
    sumVals (storeEngagement (some ⟨[("x", 3)], [], some [], some [], 3, some []⟩)
      ⟨some "y", none, some "t", 4, some [1], some "hh", 7⟩).byDomain :=
  c3_totalMs_matches_byDomain ⟨[("x", 3)], [], some [], some [], 3, some []⟩
    ⟨some "y", none, some "t", 4, some [1], some "hh", 7⟩ (by decide)

/-- Claim C5: when tracking and ML are on, the title is long enough, the
classifier succeeds with some topic, the hash misses the cache and the
embedding capability fails (modelled by embedRes none, covering load and
inference errors), the listener still returns that topic with a null
embedding and null hash, responds successfully, and still records the base
engagement event, whose totalMs grows by exactly deltaMs: embedding failure
never suppresses classification success nor aborts the pipeline. -/
theorem c5_embed_failure_keeps_topic (st : Settings) (msg : Msg) (tp : String)
    (hashFn : String → String) (stored : Option Snapshot) (s : CacheState)
    (day : Option DayRecord)
    (htr : st.enableTracking = true) (hml : st.enableML = true)
    (hlen : (effectiveTitle st msg).length > 5)
    (hmiss : mapHas (loadEmbeddingCacheFromStorage s stored).cache
      (hashFn (trimString (effectiveTitle st msg))) = false) :
    (handleEngagement (some st) msg (some tp) hashFn none stored s day).topic = some tp ∧
    (handleEngagement (some st) msg (some tp) hashFn none stored s day).embedding = none ∧
    (handleEngagement (some st) msg (some tp) hashFn none stored s day).embeddingHash
      = none ∧
    (handleEngagement (some st) msg (some tp) hashFn none stored s day).success = true ∧
    ∃ drec, (handleEngagement (some st) msg (some tp) hashFn none stored s day).storedRecord
        = some drec ∧
      drec.totalMs = (day.getD defaultDayRecord).totalMs + msg.deltaMs := by
  have hout : (getEmbedding hashFn none stored s (effectiveTitle st msg)).embedding = none ∧
      (getEmbedding hashFn none stored s (effectiveTitle st msg)).hash = none := by
    unfold getEmbedding
    by_cases htrim : trimString (effectiveTitle st msg) = ""
    · rw [if_pos htrim]
      exact ⟨rfl, rfl⟩
    · rw [if_neg htrim]
      dsimp only
      have hm2 : ¬ (mapHas (loadEmbeddingCacheFromStorage s stored).cache
          (hashFn (trimString (effectiveTitle st msg))) = true) := by
        rw [hmiss]
        decide
      rw [if_neg hm2]
      exact ⟨rfl, rfl⟩
  have htne : effectiveTitle st msg ≠ "" := by
    intro hh
    rw [hh] at hlen
    simp at hlen
  have hntr : ¬ st.enableTracking = false := by
    rw [htr]
    decide
  unfold handleEngagement
  dsimp only
  rw [if_neg hntr]
  rw [if_pos hml, if_pos ⟨htne, hlen⟩]
  refine ⟨rfl, hout.1, hout.2, rfl, ⟨_, rfl, ?_⟩⟩
  rw [storeEngagement_totalMs]

/-- Claim C5 witness: the embed-failure theorem applied to the
seven-character title abcdefg on the already-loaded empty cache with a
throwing embedder and a successful classification. -/
theorem c5_embed_failure_keeps_topic_witness :
    (handleEngagement (some ⟨true, true, true⟩)
      ⟨some "abcdefg", some "d.com", some "article", 5000, 0⟩
      (some "tech") (fun t => t) none none ⟨[], [], true⟩ none).topic = some "tech" ∧
    (handleEngagement (some ⟨true, true, true⟩)
      ⟨some "abcdefg", some "d.com", some "article", 5000, 0⟩
      (some "tech") (fun t => t) none none ⟨[], [], true⟩ none).embedding = none := by
  have h := c5_embed_failure_keeps_topic ⟨true, true, true⟩
    ⟨some "abcdefg", some "d.com", some "article", 5000, 0⟩ "tech" (fun t => t) none
    ⟨[], [], true⟩ none (by decide) (by decide) (by decide) (by decide)
  exact ⟨h.1, h.2.1⟩

/-- Claim C6: for every well-formed in-memory cache state, persisting the
snapshot (an ordered entry list, oldest to newest) and loading it into the
empty, not-yet-loaded cache reproduces exactly the same recency order and
the same Map contents at every key: the persist-then-load round trip is the
identity on cache contents and recency. -/
theorem c6_persist_load_roundtrip (s : CacheState) (hwf : WF s) :
    (loadEmbeddingCacheFromStorage ⟨[], [], false⟩ (some (persistEmbeddingCache s))).order
      = s.order ∧
    ∀ k, mapGet (loadEmbeddingCacheFromStorage ⟨[], [], false⟩
      (some (persistEmbeddingCache s))).cache k = mapGet s.cache k := by
  obtain ⟨hnd, hres, hkeys, hknd⟩ := hwf
  have heq : loadEmbeddingCacheFromStorage ⟨[], [], false⟩ (some (persistEmbeddingCache s)) =
      ⟨(loadEntries ⟨[], [], false⟩ (s.order.map fun h => (h, mapGet s.cache h))).cache,
       (loadEntries ⟨[], [], false⟩ (s.order.map fun h => (h, mapGet s.cache h))).order,
       true⟩ := rfl
  obtain ⟨ho, hl, hc⟩ := loadEntries_of_resident s.cache s.order ⟨[], [], false⟩ hres
  rw [heq]
  constructor
  · rw [ho]
    rfl
  · intro k
    dsimp only
    rw [hc k]
    by_cases hk : k ∈ s.order
    · rw [if_pos hk]
    · rw [if_neg hk]
      have hnone : mapGet s.cache k = none := by
        rw [mapGet_eq_none_iff]
        intro hkk
        obtain ⟨p, hp, hpk⟩ := List.mem_map.mp hkk
        exact hk (hpk ▸ hkeys p hp)
      rw [hnone]
      rfl

/-- Claim C6 witness: the round trip applied to a concrete two-entry state
whose recency order differs from the Map insertion order. -/
theorem c6_persist_load_roundtrip_witness :
    (loadEmbeddingCacheFromStorage ⟨[], [], false⟩
      (some (persistEmbeddingCache ⟨[("a", [1]), ("b", [2])], ["b", "a"], true⟩))).order
      = ["b", "a"] :=
  (c6_persist_load_roundtrip ⟨[("a", [1]), ("b", [2])], ["b", "a"], true⟩ (by decide)).1

/-- Claim C7, code-bug evaluation. The first conjunct shows the part of the
claim the code satisfies: once the loaded flag is set, a further
loadEmbeddingCacheFromStorage call is a no-op. The remaining conjuncts show
the failing part: the flag is only set after the awaited storage read, so two
tasks racing into the first load both pass the unset flag and both run the
body; running the body twice from the unset-flag state on a one-entry
snapshot leaves the duplicate recency order h, h, contradicting the claim
that a racing double execution leaves no duplicate hashes. -/
theorem c7_load_race_duplicates :
    (loadEmbeddingCacheFromStorage
        (loadBody ⟨[], [], false⟩ (some ⟨1, [("h", some [1])]⟩))
        (some ⟨1, [("h", some [1])]⟩))
      = loadBody ⟨[], [], false⟩ (some ⟨1, [("h", some [1])]⟩) ∧
    (loadBody (loadBody ⟨[], [], false⟩ (some ⟨1, [("h", some [1])]⟩))
      (some ⟨1, [("h", some [1])]⟩)).order = ["h", "h"] ∧
    ¬ (loadBody (loadBody ⟨[], [], false⟩ (some ⟨1, [("h", some [1])]⟩))
      (some ⟨1, [("h", some [1])]⟩)).order.Nodup := by
  decide

/-- Claim C8: recording two events in either order on an empty day yields the
same final totalMs, because each record call adds exactly its deltaMs to the
running total. -/
theorem c8_order_independence (e1 e2 : EngagementEvent) :
    (storeEngagement (some (storeEngagement none e1)) e2).totalMs =
    (storeEngagement (some (storeEngagement none e2)) e1).totalMs := by
  simp only [storeEngagement_totalMs, Option.getD_some, Option.getD_none, defaultDayRecord]
  omega

/-- Claim C9: after one storeEngagement call on any stored record, including
pre-migration snapshots missing byTopic, byTopicCounts or embeddingSamples,
the resulting record is structurally complete: the three optional maps are
all present (byDomain and byContentType are present in every record by
construction), because the call defaults each missing field to empty before
mutating. -/
theorem c9_migration_defaults (ex : Option DayRecord) (d : EngagementEvent) :
    (storeEngagement ex d).byTopic.isSome = true ∧
    (storeEngagement ex d).byTopicCounts.isSome = true ∧
    (storeEngagement ex d).embeddingSamples.isSome = true :=
  storeEngagement_migrated ex d

/-- Claim C10: for every non-empty normalised text whose hash misses the
cache, if the embedding capability throws (embedRes none) or returns an
empty vector (embedRes some nil), getEmbedding returns a null embedding and
a null hash even though the content hash was computed, performs no snapshot
write, and changes the module state only by the lazy at-most-once load; in
particular when the cache was already loaded the state is exactly unchanged
and nothing is inserted. -/
theorem c10_embed_failure_discards (hashFn : String → String) (er : Option Embedding)
    (stored : Option Snapshot) (s : CacheState) (t : String)
    (hne : ¬ trimString t = "")
    (hmiss : mapHas (loadEmbeddingCacheFromStorage s stored).cache
      (hashFn (trimString t)) = false)
    (hfail : er = none ∨ er = some []) :
    (getEmbedding hashFn er stored s t).embedding = none ∧
    (getEmbedding hashFn er stored s t).hash = none ∧
    (getEmbedding hashFn er stored s t).hashComputed = true ∧
    (getEmbedding hashFn er stored s t).persisted = false ∧
    (getEmbedding hashFn er stored s t).state = loadEmbeddingCacheFromStorage s stored ∧
    (s.loaded = true → (getEmbedding hashFn er stored s t).state = s) := by
  have hm2 : ¬ (mapHas (loadEmbeddingCacheFromStorage s stored).cache
      (hashFn (trimString t)) = true) := by
    rw [hmiss]
    decide
  have hsl : s.loaded = true → loadEmbeddingCacheFromStorage s stored = s := by
    intro hld
    unfold loadEmbeddingCacheFromStorage
    rw [hld]
    rfl
  unfold getEmbedding
  rw [if_neg hne]
  dsimp only
  rw [if_neg hm2]
  rcases hfail with hf | hf <;> subst hf
  · exact ⟨rfl, rfl, rfl, rfl, rfl, fun hld => hsl hld⟩
  · exact ⟨rfl, rfl, rfl, rfl, rfl, fun hld => hsl hld⟩

/-- Claim C10 witness: the failure path applied to the already-loaded empty
cache and the text abc with a throwing embedder. -/
theorem c10_embed_failure_discards_witness :
    (getEmbedding (fun t => t) none none ⟨[], [], true⟩ "abc").embedding = none ∧
    (getEmbedding (fun t => t) none none ⟨[], [], true⟩ "abc").hash = none ∧
    (getEmbedding (fun t => t) none none ⟨[], [], true⟩ "abc").state = ⟨[], [], true⟩ := by
  have h := c10_embed_failure_discards (fun t => t) none none ⟨[], [], true⟩ "abc"
    (by decide) (by decide) (Or.inl rfl)
  exact ⟨h.1, h.2.1, h.2.2.2.2.2 rfl⟩

end Horizon
